import Mathlib

/-!
Verification of the cache-replacement simulator
(`src/python/stage5_cache_simulator.py`) against its specification.

The Python classes and functions are shallowly embedded as Lean
definitions:

* the `OrderedDict` named `cache` becomes a `List Int` of keys in
  insertion/recency order (front = oldest, back = newest);
* the `frequency` dict becomes an association list `List (Int × Nat)`
  in key-insertion order (Python dicts preserve insertion order, and
  `min(dict, key=dict.get)` returns the first key attaining the
  minimal value in that order);
* the `fifo_queue` deque becomes a `List Int` (front = head);
* Python exceptions (`StopIteration` from `next(iter({}))`,
  `IndexError` from `deque.popleft()` on an empty deque or
  `random.choice([])`, `ValueError` from `min({})`, `KeyError` from
  `del d[k]`) become the `Except` error branch, carrying the state as
  mutated up to the point where the exception was raised;
* the float hit rate becomes an exact rational (`ℚ`);
* the process-global pseudo-random generator consulted by the RANDOM
  eviction policy becomes an explicit stream `rng : Nat → Nat`
  together with a cursor `rngIdx`, consumed one draw per choice.
-/

/-- The `ReplacementPolicy` enum of the source. -/
inductive ReplacementPolicy where
  | LRU
  | FIFO
  | LFU
  | RANDOM
deriving DecidableEq, Repr

/-- State of the `CacheSimulator` Python object.  Fields keep the
source's attribute names. -/
structure CacheSimulator where
  capacity : Int
  policy : ReplacementPolicy
  cache : List Int
  frequency : List (Int × Nat)
  fifo_queue : List Int
  hits : Nat
  misses : Nat
  accesses : List Int
  hit_rate_history : List ℚ
  rng : Nat → Nat
  rngIdx : Nat

namespace CacheSimulator

/-- `CacheSimulator.__init__`: the constructor stores the capacity and
policy without any validation and starts with empty containers and
zeroed statistics.  The extra `rng` argument is the explicit model of
the process-global random generator (the Python constructor performs
no validation and takes no randomness argument). -/
def init (capacity : Int) (policy : ReplacementPolicy) (rng : Nat → Nat) :
    CacheSimulator :=
  { capacity := capacity
    policy := policy
    cache := []
    frequency := []
    fifo_queue := []
    hits := 0
    misses := 0
    accesses := []
    hit_rate_history := []
    rng := rng
    rngIdx := 0 }

/-- `dict.get(a, 0)` on the frequency association list. -/
def freqGet (f : List (Int × Nat)) (a : Int) : Nat :=
  match f with
  | [] => 0
  | (b, v) :: rest => if b = a then v else freqGet rest a

/-- `d[a] = v` on a Python dict: update in place when the key exists
(keeping its position), append otherwise. -/
def freqSet (f : List (Int × Nat)) (a : Int) (v : Nat) : List (Int × Nat) :=
  match f with
  | [] => [(a, v)]
  | (b, w) :: rest => if b = a then (b, v) :: rest else (b, w) :: freqSet rest a v

/-- `del d[a]` on the frequency dict (key assumed present by callers). -/
def freqErase (f : List (Int × Nat)) (a : Int) : List (Int × Nat) :=
  match f with
  | [] => []
  | (b, w) :: rest => if b = a then rest else (b, w) :: freqErase rest a

/-- Helper for `min(d, key=d.get)`: scan keeping the first key whose
value is strictly smaller than the best so far (Python's `min` keeps
the earliest minimum). -/
def minFreqGo (a : Int) (v : Nat) : List (Int × Nat) → Int
  | [] => a
  | (b, w) :: rest => if w < v then minFreqGo b w rest else minFreqGo a v rest

/-- `min(self.frequency, key=self.frequency.get)`; `none` models the
`ValueError` Python raises on an empty mapping. -/
def minFreqAddr (f : List (Int × Nat)) : Option Int :=
  match f with
  | [] => none
  | (b, w) :: rest => some (minFreqGo b w rest)

/-- `CacheSimulator._update_on_hit`.  The LRU branch calls
`OrderedDict.move_to_end`, which raises `KeyError` when the address is
absent; the error branch carries the unchanged state. -/
def update_on_hit (s : CacheSimulator) (a : Int) :
    Except CacheSimulator CacheSimulator :=
  match s.policy with
  | .LRU =>
      if a ∈ s.cache then .ok { s with cache := s.cache.erase a ++ [a] }
      else .error s
  | .LFU => .ok { s with frequency := freqSet s.frequency a (freqGet s.frequency a + 1) }
  | _ => .ok s

/-- `CacheSimulator._evict`.  Each branch mirrors the source,
including where a Python exception would be raised on a state the
branch cannot handle; an error result carries the state as mutated up
to the raising statement. -/
def evict (s : CacheSimulator) : Except CacheSimulator CacheSimulator :=
  match s.policy with
  | .LRU =>
      match s.cache with
      | [] => .error s
      | _ :: rest => .ok { s with cache := rest }
  | .FIFO =>
      match s.fifo_queue with
      | [] => .error s
      | q :: qs =>
          if q ∈ s.cache then
            .ok { s with fifo_queue := qs, cache := s.cache.erase q }
          else .error { s with fifo_queue := qs }
  | .LFU =>
      match minFreqAddr s.frequency with
      | none => .error s
      | some a =>
          if a ∈ s.cache then
            .ok { s with cache := s.cache.erase a, frequency := freqErase s.frequency a }
          else .error s
  | .RANDOM =>
      match s.cache with
      | [] => .error s
      | _ =>
          let a := s.cache.getD (s.rng s.rngIdx % s.cache.length) 0
          .ok { s with cache := s.cache.erase a, rngIdx := s.rngIdx + 1 }

/-- The insertion half of `CacheSimulator._update_on_miss`: store the
new block (`self.cache[address] = True` keeps an existing key's
position and appends a new key) and initialise policy metadata. -/
def insertBlock (s1 : CacheSimulator) (a : Int) : CacheSimulator :=
  let s2 := { s1 with cache := if a ∈ s1.cache then s1.cache else s1.cache ++ [a] }
  match s2.policy with
  | .LFU => { s2 with frequency := freqSet s2.frequency a 1 }
  | .FIFO => { s2 with fifo_queue := s2.fifo_queue ++ [a] }
  | .LRU => { s2 with cache := s2.cache.erase a ++ [a] }
  | .RANDOM => s2

/-- `CacheSimulator._update_on_miss`: evict first when
`len(self.cache) >= self.capacity`, then insert the new block. -/
def update_on_miss (s : CacheSimulator) (a : Int) :
    Except CacheSimulator CacheSimulator :=
  match (if s.capacity ≤ (s.cache.length : Int) then evict s else .ok s) with
  | .error e => .error e
  | .ok s1 => .ok (insertBlock s1 a)

/-- `CacheSimulator.get_hit_rate`: `hits / total * 100`, and `0.0`
when no access has been made.  Floats are modelled exactly, by
rationals. -/
def get_hit_rate (s : CacheSimulator) : ℚ :=
  let total := s.hits + s.misses
  if 0 < total then (s.hits : ℚ) / (total : ℚ) * 100 else 0

/-- `CacheSimulator.access`: record the address, test membership,
update counters and metadata, append the freshly recomputed hit rate.
The first component is `some result` on normal return and `none` when
the Python code would raise (in which case the history append after
the metadata update is never reached). -/
def access (s : CacheSimulator) (a : Int) : Option Bool × CacheSimulator :=
  let s0 := { s with accesses := s.accesses ++ [a] }
  if a ∈ s0.cache then
    let s1 := { s0 with hits := s0.hits + 1 }
    match update_on_hit s1 a with
    | .error e => (none, e)
    | .ok s2 =>
        (some true,
         { s2 with hit_rate_history := s2.hit_rate_history ++ [get_hit_rate s2] })
  else
    let s1 := { s0 with misses := s0.misses + 1 }
    match update_on_miss s1 a with
    | .error e => (none, e)
    | .ok s2 =>
        (some false,
         { s2 with hit_rate_history := s2.hit_rate_history ++ [get_hit_rate s2] })

/-- The statistics snapshot returned by `CacheSimulator.get_statistics`. -/
structure Statistics where
  hits : Nat
  misses : Nat
  total_accesses : Nat
  hit_rate : ℚ
  miss_rate : ℚ
deriving DecidableEq, Repr

/-- `CacheSimulator.get_statistics`: derived arithmetically from the
counters; note `miss_rate` is `100 - hit_rate`, not computed from the
miss count. -/
def get_statistics (s : CacheSimulator) : Statistics :=
  { hits := s.hits
    misses := s.misses
    total_accesses := s.hits + s.misses
    hit_rate := get_hit_rate s
    miss_rate := 100 - get_hit_rate s }

end CacheSimulator

/-- Driving a trace through the simulator: the state after the
sequential `access` calls of the main loops of the source. -/
def runTrace (s : CacheSimulator) : List Int → CacheSimulator
  | [] => s
  | a :: rest => runTrace (s.access a).2 rest

/-- The per-call results of driving a trace (one entry per call;
`none` marks a call on which Python would raise). -/
def runResults (s : CacheSimulator) : List Int → List (Option Bool)
  | [] => []
  | a :: rest => (s.access a).1 :: runResults (s.access a).2 rest

/-- Explicit randomness source threaded through the trace generator:
`randint i lo hi` models the value of the `i`-th `random.randint(lo, hi)`
draw, and `stayNear i` models whether the `i`-th `random.random()` draw
is below `0.8`. -/
structure TraceRng where
  randint : Nat → Int → Int → Int
  stayNear : Nat → Bool

/-- The locality random walk of `generate_access_pattern`. -/
def localityGo (rng : TraceRng) : Nat → Nat → Int → List Int
  | 0, _, _ => []
  | n + 1, step, current =>
      current ::
        localityGo rng n (step + 1)
          (current +
            (if rng.stayNear step then rng.randint step 1 5
             else rng.randint step 20 100))

/-- `generate_access_pattern`: the four named patterns and the empty
fallback.  The global random generator of the source is passed
explicitly as `rng`. -/
def generate_access_pattern (pattern_type : String) (length : Nat)
    (rng : TraceRng) : List Int :=
  if pattern_type = "sequential" then
    (List.range length).map Int.ofNat
  else if pattern_type = "random" then
    (List.range length).map (fun i => rng.randint i 0 ((length : Int) / 2))
  else if pattern_type = "locality" then
    localityGo rng length 0 0
  else if pattern_type = "stride" then
    (List.range length).map (fun i => (i : Int) * 4)
  else []

/-- A fixed randomness stream used to instantiate concrete runs. -/
def zeroRng : Nat → Nat := fun _ => 0

/-- A fixed trace-generator randomness source for concrete runs. -/
def zeroTR : TraceRng :=
  { randint := fun _ lo _ => lo, stayNear := fun _ => true }

open CacheSimulator

/-- C2 (failing-input evaluation): with capacity 0, the very first
access under every policy reaches victim selection on the empty cache
and raises (the Python code hits StopIteration, IndexError,
ValueError or IndexError respectively), contradicting the claim that
every capacity-0 access succeeds as a miss; the resident set does
stay empty. -/
theorem zero_capacity_access_raises (p : ReplacementPolicy) (r : Nat → Nat)
    (a : Int) :
    ((CacheSimulator.init 0 p r).access a).1 = none ∧
    ((CacheSimulator.init 0 p r).access a).2.cache = [] := by
  cases p <;>
    simp [CacheSimulator.access, CacheSimulator.init,
      CacheSimulator.update_on_miss, CacheSimulator.evict,
      CacheSimulator.minFreqAddr]

/-- C3 (counterexample): constructing a simulator with the negative
capacity -1 does not fail; the constructor returns a normal state
that stores the invalid capacity unchecked. -/
theorem negative_capacity_construction_succeeds :
    (CacheSimulator.init (-1) .LRU zeroRng).capacity = -1 ∧
    (CacheSimulator.init (-1) .LRU zeroRng).cache = [] ∧
    (CacheSimulator.init (-1) .LRU zeroRng).hits = 0 ∧
    (CacheSimulator.init (-1) .LRU zeroRng).misses = 0 :=
  ⟨rfl, rfl, rfl, rfl⟩

/-- C3 (amended): construction never validates the capacity — for
every integer capacity (negative included) and every policy it
succeeds, storing the capacity as given, with empty containers and
zeroed statistics. -/
theorem construction_never_validates (c : Int) (p : ReplacementPolicy)
    (r : Nat → Nat) :
    (CacheSimulator.init c p r).capacity = c ∧
    (CacheSimulator.init c p r).policy = p ∧
    (CacheSimulator.init c p r).cache = [] ∧
    (CacheSimulator.init c p r).hits = 0 ∧
    (CacheSimulator.init c p r).misses = 0 :=
  ⟨rfl, rfl, rfl, rfl, rfl⟩

/-- C6: capacity 2, FIFO, trace [1,2,1,3]: before the last access the
resident set is (1, 2) (and the third access was a hit on 1); inserting
3 evicts 1, the head of the insertion-order queue, despite its re-hit,
leaving resident set (2, 3). -/
theorem fifo_evicts_first_inserted_despite_hit :
    (runTrace (CacheSimulator.init 2 .FIFO zeroRng) [1, 2, 1]).cache = [1, 2] ∧
    runResults (CacheSimulator.init 2 .FIFO zeroRng) [1, 2, 1, 3] =
      [some false, some false, some true, some false] ∧
    (runTrace (CacheSimulator.init 2 .FIFO zeroRng) [1, 2, 1, 3]).cache = [2, 3] ∧
    (1 : Int) ∉ (runTrace (CacheSimulator.init 2 .FIFO zeroRng) [1, 2, 1, 3]).cache := by
  refine ⟨by decide, by decide, by decide, by decide⟩

/-- C7: capacity 2, LFU, trace [1,2,1,3]: before the last access the
frequencies are 1 at count 2 and 2 at count 1; inserting 3 evicts the
least-frequent address 2, leaving resident set (1, 3). -/
theorem lfu_evicts_least_frequent :
    (runTrace (CacheSimulator.init 2 .LFU zeroRng) [1, 2, 1]).frequency =
      [(1, 2), (2, 1)] ∧
    runResults (CacheSimulator.init 2 .LFU zeroRng) [1, 2, 1, 3] =
      [some false, some false, some true, some false] ∧
    (runTrace (CacheSimulator.init 2 .LFU zeroRng) [1, 2, 1, 3]).cache = [1, 3] ∧
    (2 : Int) ∉ (runTrace (CacheSimulator.init 2 .LFU zeroRng) [1, 2, 1, 3]).cache := by
  refine ⟨by decide, by decide, by decide, by decide⟩

/-- C9: the stride pattern of length 5 is [0,4,8,12,16] under every
randomness source, so its output does not depend on the source. -/
theorem stride_pattern_deterministic (r1 r2 : TraceRng) :
    generate_access_pattern "stride" 5 r1 = [0, 4, 8, 12, 16] ∧
    generate_access_pattern "stride" 5 r2 =
      generate_access_pattern "stride" 5 r1 := by
  constructor <;> rfl

/-- C10: the snapshot's miss rate is always 100 minus the hit rate
(never derived from the miss count), so with no accesses recorded the
snapshot reports hit rate 0 and miss rate 100. -/
theorem miss_rate_is_complement (s : CacheSimulator) :
    (s.get_statistics).miss_rate = 100 - (s.get_statistics).hit_rate ∧
    (s.hits + s.misses = 0 →
      (s.get_statistics).hit_rate = 0 ∧ (s.get_statistics).miss_rate = 100) := by
  refine ⟨rfl, fun h => ?_⟩
  have h1 : s.get_hit_rate = 0 := by
    simp [CacheSimulator.get_hit_rate, h]
  constructor
  · simpa [CacheSimulator.get_statistics] using h1
  · simp [CacheSimulator.get_statistics, h1]

/-- C10 witness: a freshly constructed simulator has no accesses and
its snapshot reports hit rate 0 and miss rate 100. -/
theorem miss_rate_is_complement_witness :
    (CacheSimulator.init 4 .LRU zeroRng).hits +
      (CacheSimulator.init 4 .LRU zeroRng).misses = 0 ∧
    ((CacheSimulator.init 4 .LRU zeroRng).get_statistics).hit_rate = 0 ∧
    ((CacheSimulator.init 4 .LRU zeroRng).get_statistics).miss_rate = 100 :=
  ⟨rfl, (miss_rate_is_complement (CacheSimulator.init 4 .LRU zeroRng)).2 rfl⟩

/-- Moving an element of a list to the end preserves membership
(model of `OrderedDict.move_to_end`). -/
theorem mem_moveToEnd (l : List Int) (a : Int) (h : a ∈ l) (b : Int) :
    b ∈ l.erase a ++ [a] ↔ b ∈ l := by
  by_cases hb : b = a
  · subst hb; simp [h]
  · simp [List.mem_append, List.mem_erase_of_ne hb, hb]

/-- On a resident address, access returns a hit and the resident set
is unchanged. -/
theorem access_of_mem (s : CacheSimulator) (a : Int) (h : a ∈ s.cache) :
    (s.access a).1 = some true ∧
    ∀ b : Int, (b ∈ (s.access a).2.cache ↔ b ∈ s.cache) := by
  obtain ⟨cap, pol, cache, freq, fq, hits, misses, acc, hist, rng, ri⟩ := s
  simp only at h
  cases pol <;>
    simp [CacheSimulator.access, CacheSimulator.update_on_hit, h] <;>
    exact fun b => by simpa using mem_moveToEnd cache a h b

/-- On a non-resident address, access never reports a hit. -/
theorem access_fst_of_not_mem (s : CacheSimulator) (a : Int) (h : a ∉ s.cache) :
    (s.access a).1 ≠ some true := by
  obtain ⟨cap, pol, cache, freq, fq, hits, misses, acc, hist, rng, ri⟩ := s
  simp only at h
  simp only [CacheSimulator.access, h, if_false]
  cases hm : CacheSimulator.update_on_miss
      { capacity := cap, policy := pol, cache := cache, frequency := freq,
        fifo_queue := fq, hits := hits, misses := misses + 1,
        accesses := acc ++ [a], hit_rate_history := hist, rng := rng,
        rngIdx := ri } a <;> simp [hm]

/-- C4: access(address) returns a hit exactly when the address is
resident immediately before the call, and a hit leaves the resident
set unchanged (no insertion, no eviction). -/
theorem access_hit_iff_resident (s : CacheSimulator) (a : Int) :
    ((s.access a).1 = some true ↔ a ∈ s.cache) ∧
    (a ∈ s.cache → ∀ b : Int, (b ∈ (s.access a).2.cache ↔ b ∈ s.cache)) := by
  refine ⟨⟨fun h1 => ?_, fun hmem => (access_of_mem s a hmem).1⟩,
    fun hmem b => (access_of_mem s a hmem).2 b⟩
  by_contra hmem
  exact access_fst_of_not_mem s a hmem h1

/-- C4 witness: in the concrete state reached by trace [1] (capacity
2, LRU), re-accessing 1 is a hit and leaves residency of 1 and 2
unchanged. -/
theorem access_hit_iff_resident_witness :
    (1 : Int) ∈ (runTrace (CacheSimulator.init 2 .LRU zeroRng) [1]).cache ∧
    ((runTrace (CacheSimulator.init 2 .LRU zeroRng) [1]).access 1).1 = some true ∧
    ((1 : Int) ∈ ((runTrace (CacheSimulator.init 2 .LRU zeroRng) [1]).access 1).2.cache ↔
      (1 : Int) ∈ (runTrace (CacheSimulator.init 2 .LRU zeroRng) [1]).cache) ∧
    ((2 : Int) ∈ ((runTrace (CacheSimulator.init 2 .LRU zeroRng) [1]).access 1).2.cache ↔
      (2 : Int) ∈ (runTrace (CacheSimulator.init 2 .LRU zeroRng) [1]).cache) := by
  have h1 : (1 : Int) ∈ (runTrace (CacheSimulator.init 2 .LRU zeroRng) [1]).cache := by
    decide
  exact ⟨h1, (access_hit_iff_resident _ 1).1.2 h1,
    (access_hit_iff_resident _ 1).2 h1 1, (access_hit_iff_resident _ 1).2 h1 2⟩

/-- The state a Python caller observes after a call that either
returned normally or raised: both carry a state. -/
def outSt : Except CacheSimulator CacheSimulator → CacheSimulator
  | .ok s => s
  | .error s => s

/-- An in-range `getD` yields an element of the list. -/
theorem getD_mem_of_lt (l : List Int) (i : Nat) (hi : i < l.length) :
    l.getD i 0 ∈ l := by
  rw [List.getD_eq_getElem?_getD, List.getElem?_eq_getElem hi]
  exact List.getElem_mem hi

/-- Metadata update on a hit never changes the statistics counters,
the history, the capacity, the policy, or the number of resident
blocks. -/
theorem update_on_hit_fields (s : CacheSimulator) (a : Int) :
    (outSt (s.update_on_hit a)).capacity = s.capacity ∧
    (outSt (s.update_on_hit a)).policy = s.policy ∧
    (outSt (s.update_on_hit a)).hits = s.hits ∧
    (outSt (s.update_on_hit a)).misses = s.misses ∧
    (outSt (s.update_on_hit a)).hit_rate_history = s.hit_rate_history ∧
    (outSt (s.update_on_hit a)).accesses = s.accesses ∧
    (outSt (s.update_on_hit a)).cache.length = s.cache.length := by
  obtain ⟨cap, pol, cache, freq, fq, hits, misses, acc, hist, rng, ri⟩ := s
  cases pol <;> simp only [CacheSimulator.update_on_hit, outSt]
  case LRU =>
    by_cases h : a ∈ cache
    · have h1 : 0 < cache.length := List.length_pos_of_mem h
      simp [h, List.length_erase_of_mem h, Nat.sub_add_cancel h1]
    · simp [h, outSt]
  all_goals simp

/-- Eviction never changes the statistics counters, the history, the
capacity, the policy, or the recorded accesses, and never grows the
resident set. -/
theorem evict_fields (s : CacheSimulator) :
    (outSt s.evict).capacity = s.capacity ∧
    (outSt s.evict).policy = s.policy ∧
    (outSt s.evict).hits = s.hits ∧
    (outSt s.evict).misses = s.misses ∧
    (outSt s.evict).hit_rate_history = s.hit_rate_history ∧
    (outSt s.evict).accesses = s.accesses ∧
    (outSt s.evict).cache.length ≤ s.cache.length := by
  obtain ⟨cap, pol, cache, freq, fq, hits, misses, acc, hist, rng, ri⟩ := s
  cases pol <;> simp only [CacheSimulator.evict, outSt]
  case LRU =>
    cases cache <;> simp [outSt]
  case FIFO =>
    cases fq with
    | nil => simp [outSt]
    | cons q qs =>
        by_cases h : q ∈ cache
        · simp [h, outSt, List.length_erase_of_mem h, Nat.sub_le]
        · simp [h, outSt]
  case LFU =>
    cases hf : CacheSimulator.minFreqAddr freq with
    | none => simp [outSt]
    | some b =>
        by_cases h : b ∈ cache
        · simp [hf, h, outSt, List.length_erase_of_mem h, Nat.sub_le]
        · simp [hf, h, outSt]
  case RANDOM =>
    cases cache with
    | nil => simp [outSt]
    | cons c cs =>
        exact ⟨rfl, rfl, rfl, rfl, rfl, rfl, List.length_erase_le _ _⟩

/-- A successful eviction removes exactly one resident block. -/
theorem evict_ok_length (s s1 : CacheSimulator) (h : s.evict = .ok s1) :
    s1.cache.length + 1 = s.cache.length := by
  obtain ⟨cap, pol, cache, freq, fq, hits, misses, acc, hist, rng, ri⟩ := s
  cases pol <;> simp only [CacheSimulator.evict] at h <;> (repeat' split at h) <;>
      (try cases h) <;> simp_all
  case FIFO.h_2.isTrue.refl =>
    rename_i hq
    have h1 : 0 < cache.length := List.length_pos_of_mem hq
    omega
  case LFU.h_2.isTrue.refl =>
    rename_i hb
    have h1 : 0 < cache.length := List.length_pos_of_mem hb
    omega
  case RANDOM.h_2.refl =>
    rename_i hne
    have hlen : 0 < cache.length := List.length_pos.mpr hne
    have hm : (cache[rng ri % cache.length]?).getD 0 ∈ cache := by
      rw [List.getElem?_eq_getElem (Nat.mod_lt _ hlen)]
      exact List.getElem_mem _
    rw [List.length_erase_of_mem hm]
    omega

/-- A failed eviction leaves the resident set untouched. -/
theorem evict_error_cache (s e : CacheSimulator) (h : s.evict = .error e) :
    e.cache = s.cache := by
  obtain ⟨cap, pol, cache, freq, fq, hits, misses, acc, hist, rng, ri⟩ := s
  cases pol <;> simp only [CacheSimulator.evict] at h <;> (repeat' split at h) <;>
      (try cases h) <;> simp_all

/-- Inserting a block never changes the statistics counters, the
history, the recorded accesses, the capacity, or the policy. -/
theorem insertBlock_fields (s : CacheSimulator) (a : Int) :
    (insertBlock s a).capacity = s.capacity ∧
    (insertBlock s a).policy = s.policy ∧
    (insertBlock s a).hits = s.hits ∧
    (insertBlock s a).misses = s.misses ∧
    (insertBlock s a).hit_rate_history = s.hit_rate_history ∧
    (insertBlock s a).accesses = s.accesses := by
  obtain ⟨cap, pol, cache, freq, fq, hits, misses, acc, hist, rng, ri⟩ := s
  cases pol <;> simp [insertBlock]

/-- Inserting a block grows the resident set by at most one entry. -/
theorem insertBlock_cache_le (s : CacheSimulator) (a : Int) :
    (insertBlock s a).cache.length ≤ s.cache.length + 1 := by
  obtain ⟨cap, pol, cache, freq, fq, hits, misses, acc, hist, rng, ri⟩ := s
  by_cases hm : a ∈ cache <;> cases pol <;>
    simp only [insertBlock, hm, if_pos, if_neg, if_true, if_false, ite_true, ite_false]
  case pos.LRU =>
    have h1 : 0 < cache.length := List.length_pos_of_mem hm
    simp [List.length_erase_of_mem hm]
  case neg.LRU =>
    have hm2 : a ∈ cache ++ [a] := by simp
    simp [List.length_erase_of_mem hm2]
  all_goals simp

/-- Inserting an absent block appends it at the end of the resident
order under every policy. -/
theorem insertBlock_cache_of_not_mem (s : CacheSimulator) (a : Int)
    (hm : a ∉ s.cache) : (insertBlock s a).cache = s.cache ++ [a] := by
  obtain ⟨cap, pol, cache, freq, fq, hits, misses, acc, hist, rng, ri⟩ := s
  simp only at hm
  cases pol <;> simp only [insertBlock, hm, ite_false, if_neg, not_false_iff]
  case LRU =>
    simp [hm, List.erase_append_right _ hm]

/-- Handling a miss never changes counters, history, accesses,
capacity or policy, whether it returns or raises. -/
theorem update_on_miss_fields (s : CacheSimulator) (a : Int) :
    (outSt (s.update_on_miss a)).capacity = s.capacity ∧
    (outSt (s.update_on_miss a)).policy = s.policy ∧
    (outSt (s.update_on_miss a)).hits = s.hits ∧
    (outSt (s.update_on_miss a)).misses = s.misses ∧
    (outSt (s.update_on_miss a)).hit_rate_history = s.hit_rate_history ∧
    (outSt (s.update_on_miss a)).accesses = s.accesses := by
  unfold CacheSimulator.update_on_miss
  by_cases hc : s.capacity ≤ (s.cache.length : Int)
  · rw [if_pos hc]
    have hev := evict_fields s
    cases he : s.evict with
    | error e =>
        rw [he] at hev
        simp only [outSt] at hev ⊢
        exact ⟨hev.1, hev.2.1, hev.2.2.1, hev.2.2.2.1, hev.2.2.2.2.1,
          hev.2.2.2.2.2.1⟩
    | ok s1 =>
        rw [he] at hev
        simp only [outSt] at hev ⊢
        have hins := insertBlock_fields s1 a
        exact ⟨hins.1.trans hev.1, hins.2.1.trans hev.2.1,
          hins.2.2.1.trans hev.2.2.1, hins.2.2.2.1.trans hev.2.2.2.1,
          hins.2.2.2.2.1.trans hev.2.2.2.2.1,
          hins.2.2.2.2.2.trans hev.2.2.2.2.2.1⟩
  · rw [if_neg hc]
    simp only [outSt]
    have hins := insertBlock_fields s a
    exact ⟨hins.1, hins.2.1, hins.2.2.1, hins.2.2.2.1, hins.2.2.2.2.1,
      hins.2.2.2.2.2⟩

/-- Handling a miss keeps the resident count within the capacity
whenever it was within the capacity before the call. -/
theorem update_on_miss_cache_le (s : CacheSimulator) (a : Int)
    (h : (s.cache.length : Int) ≤ s.capacity) :
    ((outSt (s.update_on_miss a)).cache.length : Int) ≤ s.capacity := by
  unfold CacheSimulator.update_on_miss
  by_cases hc : s.capacity ≤ (s.cache.length : Int)
  · rw [if_pos hc]
    cases he : s.evict with
    | error e =>
        simp only [outSt]
        rw [evict_error_cache s e he]
        exact h
    | ok s1 =>
        simp only [outSt]
        have h1 := evict_ok_length s s1 he
        have h2 := insertBlock_cache_le s1 a
        omega
  · rw [if_neg hc]
    simp only [outSt]
    have h2 := insertBlock_cache_le s a
    omega

/-- One access call never changes the capacity or the policy. -/
theorem access_fields (s : CacheSimulator) (a : Int) :
    (s.access a).2.capacity = s.capacity ∧
    (s.access a).2.policy = s.policy := by
  obtain ⟨cap, pol, cache, freq, fq, hits, misses, acc, hist, rng, ri⟩ := s
  by_cases hm : a ∈ cache
  · have hu := update_on_hit_fields
      ⟨cap, pol, cache, freq, fq, hits + 1, misses, acc ++ [a], hist, rng, ri⟩ a
    cases he : CacheSimulator.update_on_hit
        ⟨cap, pol, cache, freq, fq, hits + 1, misses, acc ++ [a], hist, rng, ri⟩ a with
    | error e =>
        rw [he] at hu
        simp only [outSt] at hu
        simp only [CacheSimulator.access, hm, if_true, he]
        exact ⟨hu.1, hu.2.1⟩
    | ok s2 =>
        rw [he] at hu
        simp only [outSt] at hu
        simp only [CacheSimulator.access, hm, if_true, he]
        exact ⟨hu.1, hu.2.1⟩
  · have hu := update_on_miss_fields
      ⟨cap, pol, cache, freq, fq, hits, misses + 1, acc ++ [a], hist, rng, ri⟩ a
    cases he : CacheSimulator.update_on_miss
        ⟨cap, pol, cache, freq, fq, hits, misses + 1, acc ++ [a], hist, rng, ri⟩ a with
    | error e =>
        rw [he] at hu
        simp only [outSt] at hu
        simp only [CacheSimulator.access, hm, if_false, he]
        exact ⟨hu.1, hu.2.1⟩
    | ok s2 =>
        rw [he] at hu
        simp only [outSt] at hu
        simp only [CacheSimulator.access, hm, if_false, he]
        exact ⟨hu.1, hu.2.1⟩

/-- One access call keeps the resident count within the capacity. -/
theorem access_cache_le (s : CacheSimulator) (a : Int)
    (h : (s.cache.length : Int) ≤ s.capacity) :
    (((s.access a).2.cache.length : Int)) ≤ s.capacity := by
  obtain ⟨cap, pol, cache, freq, fq, hits, misses, acc, hist, rng, ri⟩ := s
  simp only at h
  by_cases hm : a ∈ cache
  · have hu := update_on_hit_fields
      ⟨cap, pol, cache, freq, fq, hits + 1, misses, acc ++ [a], hist, rng, ri⟩ a
    cases he : CacheSimulator.update_on_hit
        ⟨cap, pol, cache, freq, fq, hits + 1, misses, acc ++ [a], hist, rng, ri⟩ a with
    | error e =>
        rw [he] at hu
        simp only [outSt] at hu
        simp only [CacheSimulator.access, hm, if_true, he]
        rw [hu.2.2.2.2.2.2]
        exact h
    | ok s2 =>
        rw [he] at hu
        simp only [outSt] at hu
        simp only [CacheSimulator.access, hm, if_true, he]
        rw [hu.2.2.2.2.2.2]
        exact h
  · have hu := update_on_miss_cache_le
      ⟨cap, pol, cache, freq, fq, hits, misses + 1, acc ++ [a], hist, rng, ri⟩ a h
    cases he : CacheSimulator.update_on_miss
        ⟨cap, pol, cache, freq, fq, hits, misses + 1, acc ++ [a], hist, rng, ri⟩ a with
    | error e =>
        rw [he] at hu
        simp only [outSt] at hu
        simp only [CacheSimulator.access, hm, if_false, he]
        exact hu
    | ok s2 =>
        rw [he] at hu
        simp only [outSt] at hu
        simp only [CacheSimulator.access, hm, if_false, he]
        exact hu

/-- Driving any trace preserves the capacity bound on the resident
count, and the capacity itself. -/
theorem runTrace_cache_le (t : List Int) :
    ∀ s : CacheSimulator, (s.cache.length : Int) ≤ s.capacity →
      ((runTrace s t).cache.length : Int) ≤ s.capacity ∧
      (runTrace s t).capacity = s.capacity := by
  induction t with
  | nil => exact fun s h => ⟨h, rfl⟩
  | cons a rest ih =>
      intro s h
      have h1 := access_cache_le s a h
      have h2 := (access_fields s a).1
      have h3 := ih (s.access a).2 (by rw [h2]; exact h1)
      simp only [runTrace]
      exact ⟨h2 ▸ h3.1, h3.2.trans h2⟩

/-- C1: for every trace, every policy and every non-negative capacity,
after every access call (every prefix of the trace, crashed calls
included) the number of resident blocks is at most the capacity. -/
theorem capacity_invariant (p : ReplacementPolicy) (capacity : Int)
    (r : Nat → Nat) (trace : List Int) (i : Nat) (h : 0 ≤ capacity) :
    ((runTrace (CacheSimulator.init capacity p r) (trace.take i)).cache.length : Int)
      ≤ capacity := by
  have h0 := runTrace_cache_le (trace.take i) (CacheSimulator.init capacity p r)
    (by simpa [CacheSimulator.init] using h)
  simpa [CacheSimulator.init] using h0.1

/-- C1 witness: capacity 2 is non-negative and after the three calls
of the trace [1, 2, 3] under LRU at most 2 blocks are resident. -/
theorem capacity_invariant_witness :
    (0 : Int) ≤ 2 ∧
    ((runTrace (CacheSimulator.init 2 .LRU zeroRng) ([1, 2, 3].take 3)).cache.length : Int)
      ≤ 2 :=
  ⟨by decide, capacity_invariant .LRU 2 zeroRng [1, 2, 3] 3 (by decide)⟩

/-- A miss with spare capacity returns False, appends the block, and
touches neither the hit counter nor the capacity or policy. -/
theorem access_miss_no_evict (s : CacheSimulator) (a : Int)
    (hm : a ∉ s.cache) (hlen : (s.cache.length : Int) < s.capacity) :
    (s.access a).1 = some false ∧
    (s.access a).2.cache = s.cache ++ [a] ∧
    (s.access a).2.hits = s.hits ∧
    (s.access a).2.capacity = s.capacity ∧
    (s.access a).2.policy = s.policy := by
  obtain ⟨cap, pol, cache, freq, fq, hits, misses, acc, hist, rng, ri⟩ := s
  simp only at hm hlen
  have hc : ¬(cap ≤ (cache.length : Int)) := by omega
  have hins := insertBlock_fields
    ⟨cap, pol, cache, freq, fq, hits, misses + 1, acc ++ [a], hist, rng, ri⟩ a
  have hcache := insertBlock_cache_of_not_mem
    ⟨cap, pol, cache, freq, fq, hits, misses + 1, acc ++ [a], hist, rng, ri⟩ a hm
  refine ⟨?_, ?_, ?_, ?_, ?_⟩ <;>
    simp only [CacheSimulator.access, hm, if_false, ite_false,
      CacheSimulator.update_on_miss, hc] <;>
    first
      | rfl
      | exact hcache
      | exact hins.2.2.1
      | exact hins.1
      | exact hins.2.1

/-- Driving the addresses k, k+1, ..., k+m-1 into a cache holding
exactly the addresses below k, with enough spare capacity, misses on
every access and never changes the hit counter. -/
theorem seq_go (m : Nat) : ∀ (k : Nat) (s : CacheSimulator),
    s.cache = (List.range k).map Int.ofNat →
    ((k + m : Nat) : Int) ≤ s.capacity →
    runResults s ((List.range' k m).map Int.ofNat) =
      List.replicate m (some false) ∧
    (runTrace s ((List.range' k m).map Int.ofNat)).hits = s.hits := by
  induction m with
  | zero => exact fun k s h1 h2 => ⟨rfl, rfl⟩
  | succ m ih =>
      intro k s h1 h2
      have hmem : (k : Int) ∉ s.cache := by
        rw [h1]
        simp only [List.mem_map, List.mem_range, not_exists, not_and]
        intro j hj hEq
        rw [Int.ofNat_eq_coe] at hEq
        omega
      have hlen : (s.cache.length : Int) < s.capacity := by
        rw [h1]
        push_cast at h2
        simp only [List.length_map, List.length_range]
        omega
      have hacc := access_miss_no_evict s (k : Int) hmem hlen
      have hcache : (s.access (k : Int)).2.cache =
          (List.range (k + 1)).map Int.ofNat := by
        rw [hacc.2.1, h1, List.range_succ]
        simp
      have hcap2 : ((k + 1 + m : Nat) : Int) ≤ (s.access (k : Int)).2.capacity := by
        rw [hacc.2.2.2.1]
        push_cast at h2 ⊢
        omega
      have hrest := ih (k + 1) (s.access (k : Int)).2 hcache hcap2
      rw [List.range'_succ, List.map_cons]
      simp only [Int.ofNat_eq_coe]
      constructor
      · simp only [runResults, List.replicate]
        rw [hacc.1, hrest.1]
      · simp only [runTrace]
        rw [hrest.2, hacc.2.2.1]

/-- The hit rate is zero whenever no hit has been recorded. -/
theorem get_hit_rate_of_hits_zero (s : CacheSimulator) (h : s.hits = 0) :
    s.get_hit_rate = 0 := by
  simp only [CacheSimulator.get_hit_rate, h]
  split <;> simp

/-- C8: for every length n and every capacity of at least n, the
sequential trace 0, 1, ..., n-1 misses on every access under every
policy and ends with hit rate 0. -/
theorem sequential_within_capacity_all_miss (n : Nat) (capacity : Int)
    (p : ReplacementPolicy) (rg : TraceRng) (r : Nat → Nat)
    (h : (n : Int) ≤ capacity) :
    runResults (CacheSimulator.init capacity p r)
        (generate_access_pattern "sequential" n rg) =
      List.replicate n (some false) ∧
    (runTrace (CacheSimulator.init capacity p r)
        (generate_access_pattern "sequential" n rg)).get_hit_rate = 0 := by
  have hgen : generate_access_pattern "sequential" n rg =
      (List.range' 0 n).map Int.ofNat := by
    simp [generate_access_pattern, List.range_eq_range']
  have h0 := seq_go n 0 (CacheSimulator.init capacity p r)
    (by simp [CacheSimulator.init]) (by simpa [CacheSimulator.init] using h)
  rw [hgen]
  refine ⟨h0.1, get_hit_rate_of_hits_zero _ ?_⟩
  rw [h0.2]
  rfl

/-- C8 witness: with capacity 2 (at least the length 2) the
sequential trace misses twice and the final hit rate is 0. -/
theorem sequential_within_capacity_all_miss_witness :
    ((2 : Nat) : Int) ≤ 2 ∧
    runResults (CacheSimulator.init 2 .LRU zeroRng)
        (generate_access_pattern "sequential" 2 zeroTR) =
      List.replicate 2 (some false) ∧
    (runTrace (CacheSimulator.init 2 .LRU zeroRng)
        (generate_access_pattern "sequential" 2 zeroTR)).get_hit_rate = 0 :=
  ⟨by decide,
    sequential_within_capacity_all_miss 2 2 .LRU zeroTR zeroRng (by decide)⟩

/-- The hit rate determined by a hit counter and a miss counter. -/
def rateHM (h m : Nat) : ℚ :=
  if 0 < h + m then (h : ℚ) / ((h + m : Nat) : ℚ) * 100 else 0

/-- `get_hit_rate` is exactly the rate of the two counters. -/
theorem get_hit_rate_eq (s : CacheSimulator) :
    s.get_hit_rate = rateHM s.hits s.misses := rfl

/-- Number of hit outcomes in a result list. -/
def hitCount : List (Option Bool) → Nat
  | [] => 0
  | some true :: rest => hitCount rest + 1
  | _ :: rest => hitCount rest

/-- Number of miss outcomes in a result list. -/
def missCount : List (Option Bool) → Nat
  | [] => 0
  | some false :: rest => missCount rest + 1
  | _ :: rest => missCount rest

/-- The running hit-rate series appended by successive accesses with
the given outcomes, starting from prior counters h and m. -/
def histFrom (h m : Nat) : List (Option Bool) → List ℚ
  | [] => []
  | some true :: rest => rateHM (h + 1) m :: histFrom (h + 1) m rest
  | _ :: rest => rateHM h (m + 1) :: histFrom h (m + 1) rest

/-- Every access either hits (incrementing the hit counter and
appending the recomputed rate), misses (incrementing the miss counter
and appending the recomputed rate), or raises. -/
theorem access_stats (s : CacheSimulator) (a : Int) :
    ((s.access a).1 = some true ∧
     (s.access a).2.hits = s.hits + 1 ∧
     (s.access a).2.misses = s.misses ∧
     (s.access a).2.hit_rate_history =
       s.hit_rate_history ++ [rateHM (s.hits + 1) s.misses]) ∨
    ((s.access a).1 = some false ∧
     (s.access a).2.hits = s.hits ∧
     (s.access a).2.misses = s.misses + 1 ∧
     (s.access a).2.hit_rate_history =
       s.hit_rate_history ++ [rateHM s.hits (s.misses + 1)]) ∨
    (s.access a).1 = none := by
  obtain ⟨cap, pol, cache, freq, fq, hits, misses, acc, hist, rng, ri⟩ := s
  by_cases hm : a ∈ cache
  · have hu := update_on_hit_fields
      ⟨cap, pol, cache, freq, fq, hits + 1, misses, acc ++ [a], hist, rng, ri⟩ a
    cases he : CacheSimulator.update_on_hit
        ⟨cap, pol, cache, freq, fq, hits + 1, misses, acc ++ [a], hist, rng, ri⟩ a with
    | error e =>
        right; right
        simp only [CacheSimulator.access, hm, if_true, he]
    | ok s2 =>
        left
        rw [he] at hu
        simp only [outSt] at hu
        simp only [CacheSimulator.access, hm, if_true, he]
        refine ⟨by first | rfl | trivial, hu.2.2.1, hu.2.2.2.1, ?_⟩
        rw [hu.2.2.2.2.1, get_hit_rate_eq, hu.2.2.1, hu.2.2.2.1]
  · have hu := update_on_miss_fields
      ⟨cap, pol, cache, freq, fq, hits, misses + 1, acc ++ [a], hist, rng, ri⟩ a
    cases he : CacheSimulator.update_on_miss
        ⟨cap, pol, cache, freq, fq, hits, misses + 1, acc ++ [a], hist, rng, ri⟩ a with
    | error e =>
        right; right
        simp only [CacheSimulator.access, hm, if_false, he]
    | ok s2 =>
        right; left
        rw [he] at hu
        simp only [outSt] at hu
        simp only [CacheSimulator.access, hm, if_false, he]
        refine ⟨by first | rfl | trivial, hu.2.2.1, hu.2.2.2.1, ?_⟩
        rw [hu.2.2.2.2.1, get_hit_rate_eq, hu.2.2.1, hu.2.2.2.1]

/-- A run produces one result per trace element. -/
theorem runResults_length (t : List Int) :
    ∀ s : CacheSimulator, (runResults s t).length = t.length := by
  induction t with
  | nil => intro s; rfl
  | cons a rest ih => intro s; simp [runResults, ih]

/-- A run with no raising call adds the hit and miss counts of its
results to the counters and appends exactly the recomputed running
rates to the history. -/
theorem run_hist (t : List Int) : ∀ s : CacheSimulator,
    (∀ x ∈ runResults s t, x ≠ none) →
    (runTrace s t).hits = s.hits + hitCount (runResults s t) ∧
    (runTrace s t).misses = s.misses + missCount (runResults s t) ∧
    (runTrace s t).hit_rate_history =
      s.hit_rate_history ++ histFrom s.hits s.misses (runResults s t) := by
  induction t with
  | nil =>
      intro s h
      exact ⟨rfl, rfl, by simp [runResults, runTrace, histFrom]⟩
  | cons a rest ih =>
      intro s h
      have hne : (s.access a).1 ≠ none := by
        apply h
        simp [runResults]
      have hrest : ∀ x ∈ runResults (s.access a).2 rest, x ≠ none := by
        intro x hx
        apply h
        simp [runResults, hx]
      have ihr := ih (s.access a).2 hrest
      simp only [runTrace, runResults]
      rcases access_stats s a with hc | hc | hc
      · rw [hc.1]
        simp only [hitCount, missCount, histFrom]
        refine ⟨?_, ?_, ?_⟩
        · rw [ihr.1, hc.2.1]; omega
        · rw [ihr.2.1, hc.2.2.1]
        · rw [ihr.2.2, hc.2.2.2, hc.2.1, hc.2.2.1]
          simp
      · rw [hc.1]
        simp only [hitCount, missCount, histFrom]
        refine ⟨?_, ?_, ?_⟩
        · rw [ihr.1, hc.2.1]
        · rw [ihr.2.1, hc.2.2.1]; omega
        · rw [ihr.2.2, hc.2.2.2, hc.2.1, hc.2.2.1]
          simp
      · exact absurd hc hne

/-- A result list has at least as many entries as hits. -/
theorem hitCount_le_length (rs : List (Option Bool)) : hitCount rs ≤ rs.length := by
  induction rs with
  | nil => simp [hitCount]
  | cons x rest ih =>
      cases x with
      | none => simp only [hitCount, List.length_cons]; omega
      | some b =>
          cases b <;> simp only [hitCount, List.length_cons] <;> omega

/-- With no raising call, hits and misses partition the results. -/
theorem hit_add_miss (rs : List (Option Bool)) :
    (∀ x ∈ rs, x ≠ none) → hitCount rs + missCount rs = rs.length := by
  induction rs with
  | nil => intro _; rfl
  | cons x rest ih =>
      intro h
      have ih2 := ih (fun y hy => h y (by simp [hy]))
      cases x with
      | none => exact absurd rfl (h none (by simp))
      | some b =>
          cases b <;> simp only [hitCount, missCount, List.length_cons] <;> omega

/-- The appended rate series has one entry per access. -/
theorem histFrom_length (rs : List (Option Bool)) :
    ∀ h m : Nat, (histFrom h m rs).length = rs.length := by
  induction rs with
  | nil => intro h m; rfl
  | cons x rest ih =>
      intro h m
      cases x with
      | none => simp [histFrom, ih]
      | some b => cases b <;> simp [histFrom, ih]

/-- Entry i of the appended rate series is the rate of the counters
accumulated over the first i+1 outcomes. -/
theorem histFrom_getElem (rs : List (Option Bool)) : ∀ (i h m : Nat),
    i < rs.length →
    (histFrom h m rs)[i]? =
      some (rateHM (h + hitCount (rs.take (i + 1)))
        (m + (i + 1 - hitCount (rs.take (i + 1))))) := by
  induction rs with
  | nil => intro i h m hi; simp at hi
  | cons x rest ih =>
      intro i h m hi
      have hct := hitCount_le_length (rest.take (i + 1))
      have hlt : (rest.take (i + 1)).length ≤ i + 1 := by
        simp [List.length_take]
      have hle : hitCount (rest.take (i + 1)) ≤ i + 1 := le_trans hct hlt
      cases i with
      | zero =>
          cases x with
          | none => simp [histFrom, hitCount, List.take_succ_cons]
          | some b => cases b <;>
              simp [histFrom, hitCount, List.take_succ_cons]
      | succ i =>
          have hi2 : i < rest.length := by
            simp only [List.length_cons] at hi
            omega
          have hct2 := hitCount_le_length (rest.take (i + 1))
          have hlt2 : (rest.take (i + 1)).length ≤ i + 1 := by
            simp [List.length_take]
          have hle2 : hitCount (rest.take (i + 1)) ≤ i + 1 := le_trans hct2 hlt2
          cases x with
          | none =>
              simp only [histFrom, List.getElem?_cons_succ, List.take_succ_cons,
                hitCount]
              rw [ih i h (m + 1) hi2]
              have heq : m + 1 + (i + 1 - hitCount (rest.take (i + 1))) =
                  m + (i + 1 + 1 - hitCount (rest.take (i + 1))) := by omega
              rw [heq]
          | some b =>
              cases b with
              | false =>
                  simp only [histFrom, List.getElem?_cons_succ, List.take_succ_cons,
                    hitCount]
                  rw [ih i h (m + 1) hi2]
                  have heq : m + 1 + (i + 1 - hitCount (rest.take (i + 1))) =
                      m + (i + 1 + 1 - hitCount (rest.take (i + 1))) := by omega
                  rw [heq]
              | true =>
                  simp only [histFrom, List.getElem?_cons_succ, List.take_succ_cons,
                    hitCount]
                  rw [ih i (h + 1) m hi2]
                  have heq1 : h + 1 + hitCount (rest.take (i + 1)) =
                      h + (hitCount (rest.take (i + 1)) + 1) := by omega
                  have heq2 : m + (i + 1 - hitCount (rest.take (i + 1))) =
                      m + (i + 1 + 1 - (hitCount (rest.take (i + 1)) + 1)) := by omega
                  rw [heq1, heq2]

/-- The rate of hc hits out of n outcomes, written with an explicit
miss count. -/
theorem rateHM_formula (hc n : Nat) (hle : hc ≤ n) :
    rateHM hc (n - hc) = if n = 0 then (0 : ℚ) else 100 * (hc : ℚ) / (n : ℚ) := by
  have hn : hc + (n - hc) = n := by omega
  simp only [rateHM]
  rw [hn]
  by_cases h0 : n = 0
  · subst h0; simp
  · have hp : 0 < n := Nat.pos_of_ne_zero h0
    rw [if_pos hp, if_neg h0, div_mul_eq_mul_div, mul_comm]

/-- C5: over any completed run of n accesses with h hits, the
snapshot hit rate is 100*h/n (0 when n = 0), the history has length
n, its last entry equals the snapshot hit rate, and entry i is the
hit rate over the first i+1 accesses. -/
theorem hit_rate_statistics (p : ReplacementPolicy) (capacity : Int)
    (r : Nat → Nat) (trace : List Int)
    (hok : ∀ x ∈ runResults (CacheSimulator.init capacity p r) trace, x ≠ none) :
    ((runTrace (CacheSimulator.init capacity p r) trace).get_statistics).hit_rate =
      (if trace.length = 0 then (0 : ℚ) else
        100 * (hitCount (runResults (CacheSimulator.init capacity p r) trace) : ℚ) /
          (trace.length : ℚ)) ∧
    (runTrace (CacheSimulator.init capacity p r) trace).hit_rate_history.length =
      trace.length ∧
    (0 < trace.length →
      (runTrace (CacheSimulator.init capacity p r) trace).hit_rate_history.getLast? =
        some ((runTrace (CacheSimulator.init capacity p r) trace).get_statistics).hit_rate) ∧
    (∀ i, i < trace.length →
      (runTrace (CacheSimulator.init capacity p r) trace).hit_rate_history[i]? =
        some (100 *
          (hitCount
            ((runResults (CacheSimulator.init capacity p r) trace).take (i + 1)) : ℚ) /
          ((i + 1 : Nat) : ℚ))) := by
  obtain ⟨h_hits, h_miss, h_hist⟩ :=
    run_hist trace (CacheSimulator.init capacity p r) hok
  have hlen := runResults_length trace (CacheSimulator.init capacity p r)
  have hsum := hit_add_miss (runResults (CacheSimulator.init capacity p r) trace) hok
  have e1 : (CacheSimulator.init capacity p r).hits = 0 := rfl
  have e2 : (CacheSimulator.init capacity p r).misses = 0 := rfl
  have e3 : (CacheSimulator.init capacity p r).hit_rate_history = ([] : List ℚ) := rfl
  rw [e1, Nat.zero_add] at h_hits
  rw [e2, Nat.zero_add] at h_miss
  rw [e1, e2, e3, List.nil_append] at h_hist
  have hle : hitCount (runResults (CacheSimulator.init capacity p r) trace) ≤
      trace.length := by omega
  have hmc : missCount (runResults (CacheSimulator.init capacity p r) trace) =
      trace.length -
        hitCount (runResults (CacheSimulator.init capacity p r) trace) := by omega
  have hstat : ((runTrace (CacheSimulator.init capacity p r) trace).get_statistics).hit_rate =
      rateHM (hitCount (runResults (CacheSimulator.init capacity p r) trace))
        (missCount (runResults (CacheSimulator.init capacity p r) trace)) := by
    show (runTrace (CacheSimulator.init capacity p r) trace).get_hit_rate = _
    rw [get_hit_rate_eq, h_hits, h_miss]
  have hstat2 : ((runTrace (CacheSimulator.init capacity p r) trace).get_statistics).hit_rate =
      (if trace.length = 0 then (0 : ℚ) else
        100 * (hitCount (runResults (CacheSimulator.init capacity p r) trace) : ℚ) /
          (trace.length : ℚ)) := by
    rw [hstat, hmc, rateHM_formula _ _ hle]
  refine ⟨hstat2, ?_, ?_, ?_⟩
  · rw [h_hist, histFrom_length, hlen]
  · intro hpos
    rw [h_hist, List.getLast?_eq_getElem?, histFrom_length, hlen,
      histFrom_getElem _ (trace.length - 1) 0 0 (by omega)]
    have ht : trace.length - 1 + 1 = trace.length := by omega
    rw [ht, ← hlen, List.take_length, Nat.zero_add, Nat.zero_add, hstat, hlen, ← hmc]
  · intro i hi
    rw [h_hist, histFrom_getElem _ i 0 0 (by omega), Nat.zero_add, Nat.zero_add,
      rateHM_formula _ _ (le_trans (hitCount_le_length _) (by simp [List.length_take])),
      if_neg (Nat.succ_ne_zero i)]

/-- C5 witness: the trace [1, 2, 1] (capacity 2, LRU) completes with
results miss, miss, hit; its snapshot and history satisfy the hit
rate formula at every point. -/
theorem hit_rate_statistics_witness :
    runResults (CacheSimulator.init 2 .LRU zeroRng) [1, 2, 1] =
      [some false, some false, some true] ∧
    ((runTrace (CacheSimulator.init 2 .LRU zeroRng) [1, 2, 1]).get_statistics).hit_rate =
      (if ([1, 2, 1] : List Int).length = 0 then (0 : ℚ) else
        100 * (hitCount (runResults (CacheSimulator.init 2 .LRU zeroRng) [1, 2, 1]) : ℚ) /
          (([1, 2, 1] : List Int).length : ℚ)) ∧
    (runTrace (CacheSimulator.init 2 .LRU zeroRng) [1, 2, 1]).hit_rate_history.length = 3 ∧
    (runTrace (CacheSimulator.init 2 .LRU zeroRng) [1, 2, 1]).hit_rate_history.getLast? =
      some ((runTrace (CacheSimulator.init 2 .LRU zeroRng) [1, 2, 1]).get_statistics).hit_rate ∧
    (runTrace (CacheSimulator.init 2 .LRU zeroRng) [1, 2, 1]).hit_rate_history[2]? =
      some (100 *
        (hitCount ((runResults (CacheSimulator.init 2 .LRU zeroRng) [1, 2, 1]).take 3) : ℚ) /
        ((3 : Nat) : ℚ)) := by
  have h := hit_rate_statistics .LRU 2 zeroRng [1, 2, 1] (by decide)
  exact ⟨by decide, h.1, h.2.1, h.2.2.1 (by decide), h.2.2.2 2 (by decide)⟩
